import Mathlib

/-!
Verification of the XFBML markup-activation core (`src/xfbml/xfbml.js`).

The development shallowly embeds the `FB.XFBML` module: the tag registry
(`_tagInfos`, `registerTag`), the element scanner (`_getDomElements`), the
per-element handler binding (`_processElement` together with the deferred
`processor` closure run by the component loader), and the parse coordinator
(`parse` with its `count`/`onTagDone` protocol, the `setTimeout` diagnostic,
and the `set` wrapper).  Asynchronous completion signals are modelled as
event traces folded over the run state, so that every interleaving of
handler completions, the reserved-unit release and the timer expiry can be
quantified over.
-/

set_option maxHeartbeats 1000000

namespace XFBML

/-- A registered tag descriptor (an entry of `FB.XFBML._tagInfos`):
`xmlns` (absent entries are defaulted to `"fb"` during `parse`),
`localName`, and the handler class name `className`. -/
structure TagInfo where
  xmlns : Option String
  localName : String
  className : String
  deriving DecidableEq

/-- A DOM element of the scanned subtree, identified by its effective
(namespace-qualified) tag name. -/
structure DomNode where
  tagName : String
  deriving DecidableEq

/-- `FB.XFBML._renderTimeout`: the time allowed for all tags to finish
rendering. -/
def renderTimeout : Nat := 30000

/-- Observable actions a parse run performs: the caller's callback `cb()`,
the global `FB.Event.fire('xfbml.render')` event, and the timeout
diagnostic `FB.log(count + ' XFBML tags failed to render in ' +
FB.XFBML._renderTimeout + 'ms.')`, which records the outstanding count and
the configured timeout. -/
inductive Act where
  | cbCall : Act
  | globalEvent : Act
  | logMsg : Int → Nat → Act
  deriving DecidableEq

/-- Events driving one `parse` run: `inc` is the `count++` executed for a
discovered element, `fin` is a handler completion signal invoking
`onTagDone`, `scanEnd` is the final reserved-unit `onTagDone()` call made
after the scan loop, and `timerFire` is the `setTimeout` expiry. -/
inductive Ev where
  | inc : Ev
  | fin : Ev
  | scanEnd : Ev
  | timerFire : Ev
  deriving DecidableEq

/-- The live state of one `parse` run: the outstanding counter `count`
(a JavaScript number, going negative on extra decrements) and the actions
performed so far, in order. -/
structure RunState where
  count : Int
  out : List Act
  deriving DecidableEq

/-- The `onTagDone` closure of `parse`:
`count--; if (count === 0) { cb && cb(); FB.Event.fire('xfbml.render'); }`.
`cb` records whether a callback was supplied. -/
def onTagDone (cb : Bool) (s : RunState) : RunState :=
  let c := s.count - 1
  if c = 0 then
    { count := c
      out := s.out ++ (if cb then [Act.cbCall] else []) ++ [Act.globalEvent] }
  else
    { count := c, out := s.out }

/-- The `setTimeout` callback of `parse`:
`if (count > 0) { FB.log(count + ' XFBML tags failed to render in ' + FB.XFBML._renderTimeout + 'ms.'); }`. -/
def timerCb (s : RunState) : RunState :=
  if s.count > 0 then
    { s with out := s.out ++ [Act.logMsg s.count renderTimeout] }
  else s

/-- One event of a parse run acting on the run state. -/
def stepRun (cb : Bool) (s : RunState) : Ev → RunState
  | Ev.inc => { s with count := s.count + 1 }
  | Ev.fin => onTagDone cb s
  | Ev.scanEnd => onTagDone cb s
  | Ev.timerFire => timerCb s

/-- Fold an event trace from the initial state of `parse`: `count = 1`
(`var count = 1`), nothing observed yet. -/
def runTrace (cb : Bool) (t : List Ev) : RunState :=
  t.foldl (stepRun cb) { count := 1, out := [] }

/-- `FB.XFBML._getDomElements(dom, xmlns, localName)`, default branch:
`dom.getElementsByTagName(xmlns + ':' + localName)` — the elements of the
subtree whose effective tag name is the colon-joined full name.  (The
`mozilla`/`ie` branches differ only in the lookup strategy for the same
namespaced tag name.) -/
def getDomElements (nodes : List DomNode) (xmlns localName : String) :
    List DomNode :=
  let fullName := xmlns ++ ":" ++ localName
  nodes.filter (fun n => n.tagName == fullName)

/-- The scan loop of `parse` (`FB.forEach(FB.XFBML._tagInfos, ...)`):
for each descriptor, `if (!tagInfo.xmlns) tagInfo.xmlns = 'fb';` (an
in-place mutation of the registry entry, also triggered by an empty
string, which is falsy), then collect the matching elements.  Returns the
registry as left after the scan together with the `_processElement` calls
issued, in order (each one paired with its descriptor). -/
def parseScan (registry : List TagInfo) (nodes : List DomNode) :
    List TagInfo × List (DomNode × TagInfo) :=
  match registry with
  | [] => ([], [])
  | ti :: rest =>
      let ti2 := if ti.xmlns.getD "" = "" then { ti with xmlns := some "fb" }
                 else ti
      let elems := getDomElements nodes (ti2.xmlns.getD "fb") ti2.localName
      let r := parseScan rest nodes
      (ti2 :: r.1, elems.map (fun d => (d, ti2)) ++ r.2)

/-- The outcome of the synchronous phase of one `parse` invocation. -/
structure ParseOut where
  registry : List TagInfo
  binds : List (DomNode × TagInfo)
  events : List Ev
  deriving DecidableEq

/-- The synchronous phase of `parse`: scan every registered tag, issue one
`count++` (`Ev.inc`) per discovered element, and finally perform the
reserved-unit `onTagDone()` call (`Ev.scanEnd`).  Handler completions and
the timer expiry arrive later as further trace events. -/
def parseSync (registry : List TagInfo) (nodes : List DomNode) : ParseOut :=
  let s := parseScan registry nodes
  { registry := s.1
    binds := s.2
    events := s.2.map (fun _ => Ev.inc) ++ [Ev.scanEnd] }

/-- A reference to the DOM node `parse` scans from. -/
inductive DomRef where
  | document : DomRef
  | documentBody : DomRef
  | el : Nat → DomRef
  deriving DecidableEq

/-- The root-argument defaulting of `parse`: `dom = dom || document.body`. -/
def parseRootArg (dom : Option DomRef) : DomRef :=
  match dom with
  | some d => d
  | none => DomRef.documentBody

/-- `FB.XFBML.registerTag(tagInfo)`: `FB.XFBML._tagInfos.push(tagInfo)`. -/
def registerTag (registry : List TagInfo) (ti : TagInfo) : List TagInfo :=
  registry ++ [ti]

/-- The element `set` acts on: its identity and its current content. -/
structure PageDom where
  elemId : Nat
  innerHTML : String
  deriving DecidableEq

/-- `FB.XFBML.set(dom, markup, cb)`:
`dom.innerHTML = markup; FB.XFBML.parse(dom, cb);`.  `parseNodes` abstracts
the host browser turning the element's content into its child elements. -/
def set (parseNodes : String → List DomNode) (registry : List TagInfo)
    (dom : PageDom) (markup : String) : PageDom × ParseOut :=
  let dom2 : PageDom := { dom with innerHTML := markup }
  (dom2, parseSync registry (parseNodes dom2.innerHTML))

/-- Follows the spec's words: replace the element's content with the raw
markup (the element keeps its identity). -/
def replaceContent (dom : PageDom) (markup : String) : PageDom :=
  { dom with innerHTML := markup }

/-- Follows the spec's words: `set` "replaces the element's content with
raw markup, then performs the equivalent of `parse(element, callback)` on
that element". -/
def setSpec (parseNodes : String → List DomNode) (registry : List TagInfo)
    (dom : PageDom) (markup : String) : PageDom × ParseOut :=
  let replaced := replaceContent dom markup
  (replaced, parseSync registry (parseNodes replaced.innerHTML))

/-- Per-element binding state for `_processElement`: `loaded` models
`FB.CLASSES[tagInfo.className.substr(3)]` being available, `element` is the
`dom._element` expando, `pending` counts the `processor` closures queued via
`FB.Loader.use` and not yet run, `created` counts the `new fn(dom)`
evaluations performed for this element, `subs` the
`element.subscribe('render', cb)` calls and `processCalls` the
`element.process()` calls. -/
structure ElemState where
  loaded : Bool
  element : Option Nat
  nextId : Nat
  created : Nat
  pending : Nat
  subs : Nat
  processCalls : Nat
  deriving DecidableEq

/-- The `processor` closure of `_processElement`:
`element = dom._element = new fn(dom); element.subscribe('render', cb);
element.process();` — it instantiates unconditionally. -/
def processorRun (s : ElemState) : ElemState :=
  { s with element := some s.nextId, nextId := s.nextId + 1,
           created := s.created + 1, subs := s.subs + 1,
           processCalls := s.processCalls + 1 }

/-- `FB.XFBML._processElement(dom, tagInfo, cb)` for one element: if
`dom._element` exists, subscribe and re-`process()`; otherwise run the
`processor` now when the class is loaded, else queue it on the loader. -/
def processElement (s : ElemState) : ElemState :=
  match s.element with
  | some _ => { s with subs := s.subs + 1, processCalls := s.processCalls + 1 }
  | none =>
      if s.loaded then processorRun s
      else { s with pending := s.pending + 1 }

/-- Run `n` queued `processor` closures in order. -/
def runPendingProcessors : Nat → ElemState → ElemState
  | 0, s => s
  | n + 1, s => runPendingProcessors n (processorRun s)

/-- The component loader completing for this element's class: the class
becomes available and every `processor` queued via `FB.Loader.use` runs. -/
def loadDone (s : ElemState) : ElemState :=
  runPendingProcessors s.pending { s with loaded := true, pending := 0 }

/-- Operations observable by one element's binding state: a
`_processElement` call on it, or its handler class finishing loading. -/
inductive ElemOp where
  | bind : ElemOp
  | loadDone : ElemOp
  deriving DecidableEq

/-- Apply one operation to an element's binding state. -/
def elemStep (s : ElemState) : ElemOp → ElemState
  | ElemOp.bind => processElement s
  | ElemOp.loadDone => loadDone s

/-- Fold a sequence of operations over an element's binding state. -/
def runElem (s : ElemState) (ops : List ElemOp) : ElemState :=
  ops.foldl elemStep s

/-- A fresh, never-bound element whose handler class may or may not
already be loaded. -/
def elemInit (loaded : Bool) : ElemState :=
  { loaded := loaded, element := none, nextId := 0, created := 0,
    pending := 0, subs := 0, processCalls := 0 }

/-- Trace validity for a run with `n` discovered elements in which every
handler completes (once) before the timeout: `n` increments, one completion
per element and never more completions than increments issued so far, the
reserved-unit call strictly after every increment (the scan loop is
synchronous), and the timer not yet fired. -/
def ValidRun (n : Nat) (t : List Ev) : Prop :=
  t.count Ev.inc = n ∧ t.count Ev.fin = n ∧ t.count Ev.scanEnd = 1 ∧
  t.count Ev.timerFire = 0 ∧
  (∀ p ∈ t.inits, p.count Ev.fin ≤ p.count Ev.inc) ∧
  (∀ p ∈ t.inits, Ev.scanEnd ∈ p → p.count Ev.inc = n)

instance decValidRun (n : Nat) (t : List Ev) : Decidable (ValidRun n t) := by
  unfold ValidRun
  infer_instance

/-- Prefix-closed over-approximation of the traces reachable during a run
with `n` discovered elements, before any timer expiry. -/
def ReachableRun (n : Nat) (t : List Ev) : Prop :=
  t.count Ev.inc ≤ n ∧ t.count Ev.scanEnd ≤ 1 ∧ t.count Ev.timerFire = 0 ∧
  (∀ p ∈ t.inits, p.count Ev.fin ≤ p.count Ev.inc) ∧
  (∀ p ∈ t.inits, Ev.scanEnd ∈ p → p.count Ev.inc = n)

/-- The purely synchronous scan-phase trace for `n` elements: `n`
increments followed by the reserved-unit release. -/
def scanTrace (n : Nat) : List Ev :=
  List.replicate n Ev.inc ++ [Ev.scanEnd]

/-- Invariant of the drain phase: the global event has fired at most once,
and once it has, the counter is at or below zero, so further decrements
can only drive it negative. -/
def DrainInv (s : RunState) : Prop :=
  s.out.count Act.globalEvent ≤ 1 ∧
  (1 ≤ s.out.count Act.globalEvent → s.count ≤ 0) ∧
  s.out.count Act.cbCall ≤ s.out.count Act.globalEvent

/-- Invariant of one element's binding state: at most one instantiation has
happened or is queued, an unbound element has never been instantiated, and
once the class is loaded no processor is left queued. -/
def ElemInv (s : ElemState) : Prop :=
  s.created + s.pending ≤ 1 ∧ (s.element = none → s.created = 0) ∧
  (s.loaded = true → s.pending = 0)

/-- The demo registry of the scenario in the spec:
one descriptor for `fb:like` with no explicit namespace. -/
def likeReg : List TagInfo :=
  [{ xmlns := none, localName := "like", className := "FB.XFBML.Like" }]

/-- The demo subtree of the scenario in the spec: two `fb:like` elements
and one unrelated element. -/
def likeNodes : List DomNode :=
  [{ tagName := "fb:like" }, { tagName := "div" }, { tagName := "fb:like" }]

end XFBML

namespace XFBML

theorem count_snoc (t : List Ev) (e x : Ev) :
    (t ++ [e]).count x = t.count x + (if e = x then 1 else 0) := by
  simp [List.count_append, List.count_singleton']

theorem mem_inits_self (t : List Ev) : t ∈ t.inits :=
  (List.mem_inits t t).mpr (List.prefix_refl t)

theorem mem_inits_of_append {p t : List Ev} (e : Ev) (hp : p ∈ t.inits) :
    p ∈ (t ++ [e]).inits := by
  rw [List.mem_inits] at hp ⊢
  exact hp.trans (List.prefix_append t [e])

theorem mem_inits_trans {q p t : List Ev} (hq : q ∈ p.inits)
    (hp : p ∈ t.inits) : q ∈ t.inits := by
  rw [List.mem_inits] at hq hp ⊢
  exact hq.trans hp

theorem onTagDone_count (cb : Bool) (s : RunState) :
    (onTagDone cb s).count = s.count - 1 := by
  by_cases h : s.count - 1 = 0 <;> simp [onTagDone, h]

theorem timerCb_count (s : RunState) : (timerCb s).count = s.count := by
  by_cases h : s.count > 0 <;> simp [timerCb, h]

theorem foldl_stepRun_count (cb : Bool) (t : List Ev) :
    ∀ s : RunState,
      (t.foldl (stepRun cb) s).count =
        s.count + t.count Ev.inc - t.count Ev.fin - t.count Ev.scanEnd := by
  induction t with
  | nil => intro s; simp
  | cons e rest ih =>
      intro s
      cases e <;>
        simp [List.foldl_cons, stepRun, ih, List.count_cons, onTagDone_count,
          timerCb_count] <;> ring

/-- The counter after any event trace is `1 + increments - decrements`:
pure additive bookkeeping, independent of event order. -/
theorem runTrace_count (cb : Bool) (t : List Ev) :
    (runTrace cb t).count =
      1 + (t.count Ev.inc : Int) - t.count Ev.fin - t.count Ev.scanEnd := by
  simpa using foldl_stepRun_count cb t { count := 1, out := [] }

theorem runTrace_append (cb : Bool) (t : List Ev) (e : Ev) :
    runTrace cb (t ++ [e]) = stepRun cb (runTrace cb t) e := by
  simp [runTrace, List.foldl_append]

theorem reachable_of_append {n : Nat} {t : List Ev} {e : Ev}
    (h : ReachableRun n (t ++ [e])) : ReachableRun n t := by
  obtain ⟨h1, h2, h3, h4, h5⟩ := h
  rw [count_snoc] at h1 h2 h3
  refine ⟨by omega, by omega, by omega, ?_, ?_⟩
  · intro p hp; exact h4 p (mem_inits_of_append e hp)
  · intro p hp hm; exact h5 p (mem_inits_of_append e hp) hm

theorem reachable_mono {n : Nat} {p t : List Ev} (hp : p ∈ t.inits)
    (h : ReachableRun n t) : ReachableRun n p := by
  obtain ⟨h1, h2, h3, h4, h5⟩ := h
  have hsub : p.Sublist t := ((List.mem_inits p t).mp hp).sublist
  refine ⟨le_trans (hsub.count_le Ev.inc) h1,
          le_trans (hsub.count_le Ev.scanEnd) h2,
          Nat.le_zero.mp (h3 ▸ hsub.count_le Ev.timerFire), ?_, ?_⟩
  · intro q hq; exact h4 q (mem_inits_trans hq hp)
  · intro q hq hm; exact h5 q (mem_inits_trans hq hp) hm

theorem validRun_reachable {n : Nat} {t : List Ev} (h : ValidRun n t) :
    ReachableRun n t := by
  obtain ⟨h1, h2, h3, h4, h5, h6⟩ := h
  exact ⟨le_of_eq h1, le_of_eq h3, h4, h5, h6⟩

/-- Closed form of the observable output of a run over any reachable
trace: nothing is observed until all `n` completions and the reserved-unit
release have arrived, at which point the callback (when supplied) and the
global event are emitted, in that order, exactly once. -/
theorem runTrace_out (cb : Bool) (n : Nat) :
    ∀ t : List Ev, ReachableRun n t →
      (runTrace cb t).out =
        if t.count Ev.fin = n ∧ t.count Ev.scanEnd = 1 then
          (if cb then [Act.cbCall] else []) ++ [Act.globalEvent]
        else [] := by
  intro t
  induction t using List.reverseRecOn with
  | nil =>
      intro _
      simp [runTrace]
  | append_singleton p e ih =>
      intro h
      have hp : ReachableRun n p := reachable_of_append h
      have hout := ih hp
      have hcnt := runTrace_count cb p
      obtain ⟨h1, h2, h3, h4, h5⟩ := h
      have hSI : p.count Ev.scanEnd = 1 → p.count Ev.inc = n := by
        intro hs
        exact hp.2.2.2.2 p (mem_inits_self p)
          (List.count_pos_iff.mp (by omega))
      rw [runTrace_append]
      cases e with
      | inc =>
          rw [count_snoc, count_snoc]
          simpa [stepRun] using hout
      | fin =>
          have hFI : p.count Ev.fin + 1 ≤ p.count Ev.inc := by
            have := h4 (p ++ [Ev.fin]) (mem_inits_self _)
            rw [count_snoc, count_snoc] at this
            simpa using this
          have hIn : p.count Ev.inc ≤ n := by
            rw [count_snoc] at h1; simpa using h1
          have hS1 : p.count Ev.scanEnd ≤ 1 := by
            rw [count_snoc] at h2; simpa using h2
          by_cases hc : (runTrace cb p).count - 1 = 0
          · have hc2 : p.count Ev.inc =
                p.count Ev.fin + p.count Ev.scanEnd := by
              rw [hcnt] at hc; omega
            have hS : p.count Ev.scanEnd = 1 := by omega
            have hIN : p.count Ev.inc = n := hSI hS
            have hflagb : ¬(p.count Ev.fin = n ∧ p.count Ev.scanEnd = 1) := by
              omega
            have hL : (stepRun cb (runTrace cb p) Ev.fin).out =
                (if cb then [Act.cbCall] else []) ++ [Act.globalEvent] := by
              simp [stepRun, onTagDone, hc, hout, hflagb]
            have hC : (p ++ [Ev.fin]).count Ev.fin = n ∧
                (p ++ [Ev.fin]).count Ev.scanEnd = 1 := by
              rw [count_snoc, count_snoc]
              simp
              omega
            rw [hL, if_pos hC]
          · have hc2 : p.count Ev.inc ≠
                p.count Ev.fin + p.count Ev.scanEnd := by
              rw [hcnt] at hc; omega
            have hflagb : ¬(p.count Ev.fin = n ∧ p.count Ev.scanEnd = 1) := by
              rintro ⟨hf, hs⟩
              have := hSI hs
              omega
            have hSIn := hSI
            have hL : (stepRun cb (runTrace cb p) Ev.fin).out = [] := by
              simp [stepRun, onTagDone, hc, hout, hflagb]
            have hC : ¬((p ++ [Ev.fin]).count Ev.fin = n ∧
                (p ++ [Ev.fin]).count Ev.scanEnd = 1) := by
              rw [count_snoc, count_snoc]
              simp
              intro hf hs
              have := hSIn hs
              omega
            rw [hL, if_neg hC]
      | scanEnd =>
          have hS0 : p.count Ev.scanEnd = 0 := by
            rw [count_snoc] at h2; simp at h2; omega
          have hIN : p.count Ev.inc = n := by
            have := h5 (p ++ [Ev.scanEnd]) (mem_inits_self _) (by simp)
            rw [count_snoc] at this
            simpa using this
          have hFI : p.count Ev.fin ≤ p.count Ev.inc := by
            have := h4 (p ++ [Ev.scanEnd]) (mem_inits_self _)
            rw [count_snoc, count_snoc] at this
            simpa using this
          have hflagb : ¬(p.count Ev.fin = n ∧ p.count Ev.scanEnd = 1) := by
            omega
          by_cases hc : (runTrace cb p).count - 1 = 0
          · have hF : p.count Ev.fin = n := by rw [hcnt] at hc; omega
            have hL : (stepRun cb (runTrace cb p) Ev.scanEnd).out =
                (if cb then [Act.cbCall] else []) ++ [Act.globalEvent] := by
              simp [stepRun, onTagDone, hc, hout, hflagb]
            have hC : (p ++ [Ev.scanEnd]).count Ev.fin = n ∧
                (p ++ [Ev.scanEnd]).count Ev.scanEnd = 1 := by
              rw [count_snoc, count_snoc]
              simp
              omega
            rw [hL, if_pos hC]
          · have hF : p.count Ev.fin ≠ n := by rw [hcnt] at hc; omega
            have hL : (stepRun cb (runTrace cb p) Ev.scanEnd).out = [] := by
              simp [stepRun, onTagDone, hc, hout, hflagb]
            have hC : ¬((p ++ [Ev.scanEnd]).count Ev.fin = n ∧
                (p ++ [Ev.scanEnd]).count Ev.scanEnd = 1) := by
              rw [count_snoc, count_snoc]
              simp
              intro hf
              omega
            rw [hL, if_neg hC]
      | timerFire =>
          rw [count_snoc] at h3
          simp at h3

theorem foldl_replicate_inc (cb : Bool) (k : Nat) :
    ∀ s : RunState,
      (List.replicate k Ev.inc).foldl (stepRun cb) s =
        { s with count := s.count + k } := by
  induction k with
  | zero => intro s; simp
  | succ k ih =>
      intro s
      obtain ⟨c, o⟩ := s
      rw [List.replicate_succ, List.foldl_cons]
      rw [show stepRun cb ⟨c, o⟩ Ev.inc = ⟨c + 1, o⟩ from rfl, ih]
      simp [RunState.mk.injEq]
      omega

/-- The run state right after the synchronous scan phase for `n` elements:
with no matching element the reserved-unit release already completes the
run; otherwise the counter sits at `n` with nothing observed yet. -/
theorem runTrace_scanTrace (cb : Bool) (n : Nat) :
    runTrace cb (scanTrace n) =
      if n = 0 then
        { count := 0
          out := (if cb then [Act.cbCall] else []) ++ [Act.globalEvent] }
      else { count := (n : Int), out := [] } := by
  unfold runTrace scanTrace
  rw [List.foldl_append, foldl_replicate_inc]
  rcases Nat.eq_zero_or_pos n with h | h
  · subst h
    simp [stepRun, onTagDone]
  · have h0 : ¬((1 : Int) + n - 1 = 0) := by omega
    have hn : n ≠ 0 := by omega
    simp [stepRun, onTagDone, h0, hn]

theorem drain_onTagDone (cb : Bool) (s : RunState) (h : DrainInv s) :
    DrainInv (onTagDone cb s) := by
  obtain ⟨h1, h2, h3⟩ := h
  by_cases hc : s.count - 1 = 0
  · have hev : s.out.count Act.globalEvent = 0 := by
      by_contra hne
      have := h2 (by omega)
      omega
    have hcb : s.out.count Act.cbCall = 0 := by omega
    unfold DrainInv
    simp [onTagDone, hc, List.count_append, hev, hcb]
    cases cb <;> simp [List.count_singleton']
  · unfold DrainInv
    simp only [onTagDone, if_neg hc]
    exact ⟨h1, fun hh => by have := h2 hh; omega, h3⟩

theorem drain_timerCb (s : RunState) (h : DrainInv s) :
    DrainInv (timerCb s) := by
  obtain ⟨h1, h2, h3⟩ := h
  by_cases hc : s.count > 0
  · have hout : (timerCb s).out =
        s.out ++ [Act.logMsg s.count renderTimeout] := by
      simp [timerCb, hc]
    have e1 : List.count Act.globalEvent
        [Act.logMsg s.count renderTimeout] = 0 := by
      simp [List.count_singleton']
    have e2 : List.count Act.cbCall
        [Act.logMsg s.count renderTimeout] = 0 := by
      simp [List.count_singleton']
    unfold DrainInv
    rw [hout, timerCb_count]
    simp only [List.count_append, e1, e2]
    exact ⟨by omega, fun hh => h2 (by omega), by omega⟩
  · have hout : timerCb s = s := by simp [timerCb, hc]
    rw [hout]
    exact ⟨h1, h2, h3⟩

theorem drain_run (cb : Bool) (d : List Ev) (hd : ∀ e ∈ d, e ≠ Ev.inc) :
    ∀ s : RunState, DrainInv s → DrainInv (d.foldl (stepRun cb) s) := by
  induction d with
  | nil => intro s h; exact h
  | cons e rest ih =>
      intro s h
      have hstep : DrainInv (stepRun cb s e) := by
        cases e with
        | inc => exact absurd rfl (hd Ev.inc (by simp))
        | fin => exact drain_onTagDone cb s h
        | scanEnd => exact drain_onTagDone cb s h
        | timerFire => exact drain_timerCb s h
      exact ih (fun x hx => hd x (List.mem_cons_of_mem e hx))
        (stepRun cb s e) hstep

/-- Effect of the scan loop on the registry itself: every descriptor keeps
its `localName` and `className`; a descriptor with a non-falsy `xmlns` is
returned untouched; a descriptor with a missing (or empty) `xmlns` has it
set to `"fb"` in place. -/
theorem parseScan_registry (reg : List TagInfo) (nodes : List DomNode) :
    List.Forall₂ (fun ti2 ti =>
        ti2.localName = ti.localName ∧ ti2.className = ti.className ∧
        (ti.xmlns.getD "" ≠ "" → ti2 = ti) ∧
        (ti.xmlns.getD "" = "" → ti2.xmlns = some "fb"))
      (parseScan reg nodes).1 reg := by
  induction reg with
  | nil => simp [parseScan]
  | cons ti rest ih =>
      simp only [parseScan]
      refine List.Forall₂.cons ?_ ih
      by_cases h : ti.xmlns.getD "" = "" <;> simp [h]

theorem elemInv_run (ops : List ElemOp) :
    ∀ s : ElemState, ElemInv s →
      (∀ p ∈ ops.inits, (runElem s p).pending ≤ 1) →
      ElemInv (runElem s ops) := by
  induction ops with
  | nil => intro s h _; exact h
  | cons o rest ih =>
      intro s h hpre
      have hstep : ElemInv (elemStep s o) := by
        obtain ⟨h1, h2, h3⟩ := h
        cases o with
        | bind =>
            cases he : s.element with
            | some k =>
                have hP : processElement s =
                    { s with subs := s.subs + 1,
                             processCalls := s.processCalls + 1 } := by
                  simp [processElement, he]
                show ElemInv (processElement s)
                rw [hP]
                exact ⟨h1, fun hn => h2 (by simpa using hn), h3⟩
            | none =>
                by_cases hl : s.loaded = true
                · have hc0 : s.created = 0 := h2 he
                  have hp0 : s.pending = 0 := h3 hl
                  have hP : processElement s = processorRun s := by
                    simp [processElement, he, hl]
                  show ElemInv (processElement s)
                  rw [hP]
                  refine ⟨?_, ?_, ?_⟩
                  · show s.created + 1 + s.pending ≤ 1
                    omega
                  · intro hn
                    exact absurd hn (by simp [processorRun])
                  · intro _
                    exact hp0
                · have hc0 : s.created = 0 := h2 he
                  have hq : (runElem s [ElemOp.bind]).pending ≤ 1 :=
                    hpre [ElemOp.bind]
                      ((List.mem_inits _ _).mpr ⟨rest, rfl⟩)
                  have hq2 : s.pending + 1 ≤ 1 := by
                    simpa [runElem, elemStep, processElement, he, hl]
                      using hq
                  have hP : processElement s =
                      { s with pending := s.pending + 1 } := by
                    simp [processElement, he, hl]
                  show ElemInv (processElement s)
                  rw [hP]
                  refine ⟨?_, ?_, ?_⟩
                  · show s.created + (s.pending + 1) ≤ 1
                    omega
                  · intro _
                    exact hc0
                  · intro hll
                    exact absurd hll hl
        | loadDone =>
            show ElemInv (loadDone s)
            have hps : s.pending = 0 ∨ s.pending = 1 := by omega
            rcases hps with hp | hp
            · unfold loadDone
              rw [hp]
              refine ⟨?_, ?_, ?_⟩
              · show s.created + 0 ≤ 1
                omega
              · intro hn
                exact h2 hn
              · intro _
                rfl
            · have hc0 : s.created = 0 := by omega
              unfold loadDone
              rw [hp]
              show ElemInv (processorRun { s with loaded := true, pending := 0 })
              refine ⟨?_, ?_, ?_⟩
              · show s.created + 1 + 0 ≤ 1
                omega
              · intro hn
                exact absurd hn (by simp [processorRun])
              · intro _
                rfl
      have hpre2 : ∀ p ∈ rest.inits, (runElem (elemStep s o) p).pending ≤ 1 := by
        intro p hp
        have hmem : (o :: p) ∈ (o :: rest).inits := by
          rw [List.mem_inits] at hp ⊢
          obtain ⟨r, hr⟩ := hp
          exact ⟨r, by rw [List.cons_append, hr]⟩
        have := hpre (o :: p) hmem
        simpa [runElem, List.foldl_cons] using this
      show ElemInv (runElem (elemStep s o) rest)
      exact ih (elemStep s o) hstep hpre2

theorem elemInv_start (b : Bool) : ElemInv (elemInit b) := by
  refine ⟨by simp [elemInit], fun _ => rfl, fun _ => rfl⟩

theorem runTrace_zero_imp (cb : Bool) (n : Nat) (p : List Ev)
    (hr : ReachableRun n p) (hzero : (runTrace cb p).count = 0) :
    p.count Ev.fin = n ∧ p.count Ev.scanEnd = 1 := by
  have hcnt := runTrace_count cb p
  have hFI := hr.2.2.2.1 p (mem_inits_self p)
  have hIn := hr.1
  have hS1 := hr.2.1
  have hSI : p.count Ev.scanEnd = 1 → p.count Ev.inc = n := fun hs =>
    hr.2.2.2.2 p (mem_inits_self p) (List.count_pos_iff.mp (by omega))
  rw [hcnt] at hzero
  rcases Nat.lt_or_ge (p.count Ev.scanEnd) 1 with hs | hs
  · omega
  · have hs1 : p.count Ev.scanEnd = 1 := by omega
    have := hSI hs1
    omega

/-- Final state of a run over any valid trace: counter drained to zero,
callback (when supplied) and then the global event emitted, once each. -/
theorem runTrace_validRun (cb : Bool) (n : Nat) (t : List Ev)
    (hv : ValidRun n t) :
    runTrace cb t =
      { count := 0,
        out := (if cb then [Act.cbCall] else []) ++ [Act.globalEvent] } := by
  obtain ⟨hI, hF, hS, hT, h4, h5⟩ := hv
  have hr : ReachableRun n t := ⟨le_of_eq hI, le_of_eq hS, hT, h4, h5⟩
  have hco : (runTrace cb t).count = 0 := by
    rw [runTrace_count, hI, hF, hS]
    omega
  have hoo : (runTrace cb t).out =
      (if cb then [Act.cbCall] else []) ++ [Act.globalEvent] := by
    rw [runTrace_out cb n t hr, if_pos ⟨hF, hS⟩]
  cases hE : runTrace cb t with
  | mk c o =>
      rw [hE] at hco hoo
      simp only [RunState.mk.injEq]
      exact ⟨hco, hoo⟩

/-- C1: in every `parse` invocation the outstanding counter starts at 1,
the reserved unit is released only after every element increment has been
issued (the synchronous event list is all the increments followed by the
single `scanEnd`), the counter is never observed at zero before every
matching element and the reserved unit are accounted for, and on reaching
zero the callback (when provided) runs exactly once followed by the global
parse-finished event exactly once. -/
theorem c1_parse_counter_protocol (n : Nat) (cb : Bool) (t : List Ev)
    (hv : ValidRun n t) :
    (runTrace cb []).count = 1 ∧
    (∀ (reg : List TagInfo) (nodes : List DomNode),
      (parseSync reg nodes).events =
        List.replicate (parseSync reg nodes).binds.length Ev.inc ++
          [Ev.scanEnd]) ∧
    (∀ p ∈ t.inits, (runTrace cb p).count = 0 →
      p.count Ev.fin = n ∧ p.count Ev.scanEnd = 1) ∧
    runTrace cb t =
      { count := 0,
        out := (if cb then [Act.cbCall] else []) ++ [Act.globalEvent] } := by
  refine ⟨rfl, ?_, ?_, runTrace_validRun cb n t hv⟩
  · intro reg nodes
    simp [parseSync, List.map_const']
  · intro p hp hz
    exact runTrace_zero_imp cb n p (reachable_mono hp (validRun_reachable hv)) hz

/-- Witness for C1 at a concrete run: one element, completing after its
increment, reserved unit released last. -/
theorem c1_parse_counter_protocol_witness :
    ValidRun 1 [Ev.inc, Ev.fin, Ev.scanEnd] ∧
    runTrace true [Ev.inc, Ev.fin, Ev.scanEnd] =
      { count := 0, out := [Act.cbCall, Act.globalEvent] } := by
  have hv : ValidRun 1 [Ev.inc, Ev.fin, Ev.scanEnd] := by decide
  have h := (c1_parse_counter_protocol 1 true [Ev.inc, Ev.fin, Ev.scanEnd] hv).2.2.2
  exact ⟨hv, by simpa using h⟩

/-- C2: for a subtree with `n` matching elements, if every handler
completes before the timeout then the callback fires exactly once, only
after all `n` completions are observed, and the whole final run state is
the same for any two completion orders (counter arithmetic is
order-independent). -/
theorem c2_completion_order_independent (n : Nat) (cb : Bool)
    (t1 t2 : List Ev) (h1 : ValidRun n t1) (h2 : ValidRun n t2) :
    runTrace cb t1 = runTrace cb t2 ∧
    (runTrace cb t1).out.count Act.cbCall = (if cb then 1 else 0) ∧
    (runTrace cb t1).out.count Act.globalEvent = 1 ∧
    (∀ p ∈ t1.inits, Act.cbCall ∈ (runTrace cb p).out →
      p.count Ev.fin = n) := by
  have e1 := runTrace_validRun cb n t1 h1
  have e2 := runTrace_validRun cb n t2 h2
  refine ⟨by rw [e1, e2], ?_, ?_, ?_⟩
  · rw [e1]
    cases cb <;> simp [List.count_singleton', List.count_append]
  · rw [e1]
    cases cb <;> simp [List.count_singleton', List.count_append]
  · intro p hp hmem
    have hr := reachable_mono hp (validRun_reachable h1)
    have ho := runTrace_out cb n p hr
    rw [ho] at hmem
    by_cases hf : p.count Ev.fin = n ∧ p.count Ev.scanEnd = 1
    · exact hf.1
    · rw [if_neg hf] at hmem
      simp at hmem

/-- Witness for C2 at two concrete orders of the same run. -/
theorem c2_completion_order_independent_witness :
    runTrace true [Ev.inc, Ev.scanEnd, Ev.fin] =
      runTrace true [Ev.inc, Ev.fin, Ev.scanEnd] ∧
    (runTrace true [Ev.inc, Ev.scanEnd, Ev.fin]).out.count Act.cbCall = 1 := by
  have h := c2_completion_order_independent 1 true
    [Ev.inc, Ev.scanEnd, Ev.fin] [Ev.inc, Ev.fin, Ev.scanEnd]
    (by decide) (by decide)
  exact ⟨h.1, by simpa using h.2.1⟩

/-- C3 counterexample: two `_processElement` calls for the same element
while its handler class is still loading each queue an unconditional
`processor`; when the load completes, both run `new fn(dom)`, so the
element is instantiated twice over its lifetime. -/
theorem c3_counterexample :
    (runElem (elemInit false)
      [ElemOp.bind, ElemOp.bind, ElemOp.loadDone]).created = 2 := by
  decide

/-- C3 amended: at most one handler instance is ever created for an
element provided at most one deferred `processor` is pending at any time
(in particular whenever the class is already loaded at bind time); and a
repeat parse on an element that owns an instance reuses it — it subscribes
the new continuation and calls `process()` again without instantiating. -/
theorem c3_single_instance_amended :
    (∀ (ld : Bool) (ops : List ElemOp),
      (∀ p ∈ ops.inits, (runElem (elemInit ld) p).pending ≤ 1) →
      (runElem (elemInit ld) ops).created ≤ 1) ∧
    (∀ s : ElemState, s.element.isSome →
      (processElement s).element = s.element ∧
      (processElement s).created = s.created ∧
      (processElement s).subs = s.subs + 1 ∧
      (processElement s).processCalls = s.processCalls + 1) := by
  constructor
  · intro ld ops hpre
    have h := elemInv_run ops (elemInit ld) (elemInv_start ld) hpre
    have := h.1
    omega
  · intro s hs
    cases he : s.element with
    | none => rw [he] at hs; simp at hs
    | some k => simp [processElement, he]

/-- Witness for C3 amended: a single bind deferred on the loader, then a
repeat bind after the load, creates exactly one instance at most. -/
theorem c3_single_instance_amended_witness :
    (runElem (elemInit false)
      [ElemOp.bind, ElemOp.loadDone, ElemOp.bind]).created ≤ 1 :=
  c3_single_instance_amended.1 false
    [ElemOp.bind, ElemOp.loadDone, ElemOp.bind] (by decide)

/-- C4 counterexample: with one discovered handler and zero completions
before the timeout, the diagnostic fires — but a completion arriving after
the timeout still drains the counter to zero and invokes the callback, so
the callback is not "never invoked for that run". -/
theorem c4_counterexample :
    (runTrace true [Ev.inc, Ev.scanEnd, Ev.timerFire, Ev.fin]).out =
      [Act.logMsg 1 renderTimeout, Act.cbCall, Act.globalEvent] := by
  decide

/-- C4 amended: if only `k < n` of the `n` discovered handlers ever
complete, the timeout emits the diagnostic exactly once, reporting the
`n - k` still-outstanding operations and the configured timeout; the
timeout step does not change the counter, and the callback is not invoked
(it would be invoked only if the missing completions arrived later). -/
theorem c4_timeout_diagnostic (n k : Nat) (cb : Bool) (t : List Ev)
    (hk : k < n)
    (hI : t.count Ev.inc = n) (hF : t.count Ev.fin = k)
    (hS : t.count Ev.scanEnd = 1) (hT : t.count Ev.timerFire = 0)
    (h4 : ∀ p ∈ t.inits, p.count Ev.fin ≤ p.count Ev.inc)
    (h5 : ∀ p ∈ t.inits, Ev.scanEnd ∈ p → p.count Ev.inc = n) :
    runTrace cb (t ++ [Ev.timerFire]) =
      { count := (n : Int) - k,
        out := [Act.logMsg ((n : Int) - k) renderTimeout] } ∧
    (runTrace cb (t ++ [Ev.timerFire])).count = (runTrace cb t).count ∧
    Act.cbCall ∉ (runTrace cb (t ++ [Ev.timerFire])).out ∧
    (runTrace cb (t ++ [Ev.timerFire])).out.count
      (Act.logMsg ((n : Int) - k) renderTimeout) = 1 := by
  have hr : ReachableRun n t := ⟨le_of_eq hI, le_of_eq hS, hT, h4, h5⟩
  have hflag : ¬(t.count Ev.fin = n ∧ t.count Ev.scanEnd = 1) := by
    rw [hF]
    rintro ⟨a, -⟩
    omega
  have hout0 : (runTrace cb t).out = [] := by
    rw [runTrace_out cb n t hr, if_neg hflag]
  have hcount : (runTrace cb t).count = (n : Int) - k := by
    rw [runTrace_count, hI, hF, hS]
    omega
  have hpos : (runTrace cb t).count > 0 := by
    rw [hcount]
    omega
  have hmain : runTrace cb (t ++ [Ev.timerFire]) =
      { count := (n : Int) - k,
        out := [Act.logMsg ((n : Int) - k) renderTimeout] } := by
    rw [runTrace_append]
    show timerCb (runTrace cb t) = _
    unfold timerCb
    rw [if_pos hpos]
    cases hE : runTrace cb t with
    | mk c o =>
        rw [hE] at hout0 hcount
        simp only [RunState.mk.injEq]
        exact ⟨hcount, by rw [show o = [] from hout0,
          show c = (n : Int) - k from hcount]; simp⟩
  refine ⟨hmain, ?_, ?_, ?_⟩
  · rw [hmain, hcount]
  · rw [hmain]
    simp
  · rw [hmain]
    simp [List.count_singleton']

/-- Witness for C4 amended: one discovered handler, none completed, timer
fires: one diagnostic reporting 1 outstanding, counter still 1. -/
theorem c4_timeout_diagnostic_witness :
    runTrace true ([Ev.inc, Ev.scanEnd] ++ [Ev.timerFire]) =
      { count := 1, out := [Act.logMsg 1 renderTimeout] } := by
  have h := (c4_timeout_diagnostic 1 0 true [Ev.inc, Ev.scanEnd]
    (by decide) (by decide) (by decide) (by decide) (by decide)
    (by decide) (by decide)).1
  simpa using h

/-- C5: when the subtree contains no element matching any registered tag,
the synchronous phase of `parse` alone drains the counter to zero and
emits the callback (when provided) once and then the global event once; a
later timer expiry observes count `0` and adds nothing. -/
theorem c5_zero_matches (reg : List TagInfo) (nodes : List DomNode)
    (cb : Bool) (h : (parseScan reg nodes).2 = []) :
    runTrace cb (parseSync reg nodes).events =
      { count := 0,
        out := (if cb then [Act.cbCall] else []) ++ [Act.globalEvent] } ∧
    stepRun cb (runTrace cb (parseSync reg nodes).events) Ev.timerFire =
      runTrace cb (parseSync reg nodes).events := by
  have he : (parseSync reg nodes).events = [Ev.scanEnd] := by
    simp [parseSync, h]
  rw [he]
  constructor
  · simp [runTrace, stepRun, onTagDone]
  · simp [runTrace, stepRun, onTagDone, timerCb]

/-- Witness for C5 on a concrete registry and an unrelated-only subtree. -/
theorem c5_zero_matches_witness :
    runTrace true (parseSync likeReg [{ tagName := "div" }]).events =
      { count := 0, out := [Act.cbCall, Act.globalEvent] } := by
  have h := (c5_zero_matches likeReg [{ tagName := "div" }] true rfl).1
  simpa using h

/-- C6: with the registry holding `{localName:"like", className:"FB.XFBML.Like"}`
(namespace defaulting to `fb`) and a subtree of two `fb:like` elements plus
one unrelated element, `parse` issues exactly 2 bindings, the counter rises
to 3 after the two increments, and after both completions and the reserved
unit it drains to 0 with the callback invoked exactly once. -/
theorem c6_like_scenario :
    (parseScan likeReg likeNodes).2.length = 2 ∧
    (parseSync likeReg likeNodes).events = [Ev.inc, Ev.inc, Ev.scanEnd] ∧
    (runTrace true [Ev.inc, Ev.inc]).count = 3 ∧
    runTrace true ((parseSync likeReg likeNodes).events ++
        [Ev.fin, Ev.fin]) =
      { count := 0, out := [Act.cbCall, Act.globalEvent] } := by
  decide

/-- C7 counterexample: `parse` mutates a registered descriptor — scanning
with a descriptor whose `xmlns` is unset leaves the registry changed (its
`xmlns` has been set to `"fb"` in place). -/
theorem c7_counterexample :
    (parseScan likeReg []).1 ≠ likeReg := by
  decide

/-- C7 amended: the scan never modifies `localName` or `className`, and a
descriptor with a non-falsy `xmlns` is returned untouched; but a
descriptor registered with `xmlns` unset (or empty) has it set to `"fb"`
in place. -/
theorem c7_descriptor_mutation_amended (reg : List TagInfo)
    (nodes : List DomNode) :
    List.Forall₂ (fun ti2 ti =>
        ti2.localName = ti.localName ∧ ti2.className = ti.className ∧
        (ti.xmlns.getD "" ≠ "" → ti2 = ti) ∧
        (ti.xmlns.getD "" = "" → ti2.xmlns = some "fb"))
      (parseScan reg nodes).1 reg :=
  parseScan_registry reg nodes

/-- C8 counterexample: a `parse` call without a root argument does not
scan from the whole document — the root defaults to `document.body`. -/
theorem c8_counterexample :
    parseRootArg none ≠ DomRef.document ∧
    parseRootArg none = DomRef.documentBody := by
  decide

/-- C8 amended: `parse` called without a root argument defaults the scan
root to `document.body` (`dom = dom || document.body`); an explicit root
is used as given. -/
theorem c8_root_defaults_to_body :
    parseRootArg none = DomRef.documentBody ∧
    ∀ d : DomRef, parseRootArg (some d) = d :=
  ⟨rfl, fun _ => rfl⟩

/-- C9: `set(element, markup, callback)` replaces the element's content
with the raw markup (keeping its identity) and then behaves identically to
`parse(element, callback)` on that element. -/
theorem c9_set_refines_replace_then_parse
    (parseNodes : String → List DomNode) (reg : List TagInfo)
    (dom : PageDom) (markup : String) :
    set parseNodes reg dom markup = setSpec parseNodes reg dom markup ∧
    (set parseNodes reg dom markup).1 =
      { elemId := dom.elemId, innerHTML := markup } :=
  ⟨rfl, rfl⟩

/-- C10 counterexample: a handler firing its render event twice per
subscription during the synchronous scan delivers 4 completion signals
against 3 issued increments (2 elements plus the reserved unit), and the
callback and the global event both fire twice, not at most once. -/
theorem c10_counterexample :
    List.count Ev.fin [Ev.inc, Ev.fin, Ev.fin, Ev.inc, Ev.fin, Ev.scanEnd] +
      List.count Ev.scanEnd
        [Ev.inc, Ev.fin, Ev.fin, Ev.inc, Ev.fin, Ev.scanEnd] = 4 ∧
    List.count Ev.inc [Ev.inc, Ev.fin, Ev.fin, Ev.inc, Ev.fin, Ev.scanEnd] +
      1 = 3 ∧
    (runTrace true
      [Ev.inc, Ev.fin, Ev.fin, Ev.inc, Ev.fin, Ev.scanEnd]).out.count
        Act.globalEvent = 2 ∧
    (runTrace true
      [Ev.inc, Ev.fin, Ev.fin, Ev.inc, Ev.fin, Ev.scanEnd]).out.count
        Act.cbCall = 2 := by
  decide

/-- C10 amended: once the scan phase is over (all increments issued), any
number of further completion signals fires the callback and the global
event at most once; surplus decrements drive the counter negative and the
strict-equality zero test never retriggers the completion actions. -/
theorem c10_drain_phase_single_fire (n : Nat) (cb : Bool) (d : List Ev)
    (hd : ∀ e ∈ d, e ≠ Ev.inc) :
    (runTrace cb (scanTrace n ++ d)).out.count Act.globalEvent ≤ 1 ∧
    (runTrace cb (scanTrace n ++ d)).out.count Act.cbCall ≤ 1 ∧
    (d.count Ev.scanEnd = 0 → (n : Int) < d.count Ev.fin →
      (runTrace cb (scanTrace n ++ d)).count < 0) := by
  have hsplit : runTrace cb (scanTrace n ++ d) =
      d.foldl (stepRun cb) (runTrace cb (scanTrace n)) := by
    simp [runTrace, List.foldl_append]
  have hinv : DrainInv (runTrace cb (scanTrace n)) := by
    unfold DrainInv
    rw [runTrace_scanTrace]
    by_cases h : n = 0
    · rw [if_pos h]
      cases cb <;> simp [List.count_append, List.count_singleton']
    · rw [if_neg h]
      simp
  have hfinal := drain_run cb d hd (runTrace cb (scanTrace n)) hinv
  rw [← hsplit] at hfinal
  obtain ⟨f1, f2, f3⟩ := hfinal
  refine ⟨f1, le_trans f3 f1, ?_⟩
  intro hs hf
  have hninc : Ev.inc ∉ d := fun hmem => hd Ev.inc hmem rfl
  have hc := runTrace_count cb (scanTrace n ++ d)
  have ci : (scanTrace n ++ d).count Ev.inc = n := by
    simp [scanTrace, List.count_append, List.count_singleton',
      List.count_eq_zero.mpr hninc]
  have cf : (scanTrace n ++ d).count Ev.fin = d.count Ev.fin := by
    simp [scanTrace, List.count_append, List.count_singleton',
      List.count_replicate]
  have cs : (scanTrace n ++ d).count Ev.scanEnd = 1 := by
    simp [scanTrace, List.count_append, List.count_singleton',
      List.count_replicate, hs]
  rw [hc, ci, cf, cs]
  omega

/-- Witness for C10 amended: one element, three completion signals after
the scan: single fire, counter driven negative. -/
theorem c10_drain_phase_single_fire_witness :
    (runTrace true
      (scanTrace 1 ++ [Ev.fin, Ev.fin, Ev.fin])).out.count
        Act.globalEvent ≤ 1 ∧
    (runTrace true (scanTrace 1 ++ [Ev.fin, Ev.fin, Ev.fin])).count < 0 := by
  have h := c10_drain_phase_single_fire 1 true [Ev.fin, Ev.fin, Ev.fin]
    (by decide)
  exact ⟨h.1, h.2.2 (by decide) (by decide)⟩

end XFBML
